import Mathlib

/-!
Verification of the Rabin–Karp style substring matcher `find_pattern`
from `src/fun.cpp`.

The C++ function works on `std::string`s; characters enter the hash
computation as their integer codes, so a string is modelled as a
`List Nat` of character codes.  The hash sums (`long long sum1, sum2`
combined with `double pow(2, e)`) are modelled with exact rational
arithmetic: `pow(2, e)` is the exact rational `2 ^ e` (for `e = -1`,
which arises when the pattern is empty, this is `1/2`), and all sums
are exact.  This is the idealised arithmetic the computation performs
whenever the values stay inside the exactly-representable ranges of
`double` and `long long`.

Indexing models `std::string::operator[]`: positions below the length
yield the stored character, position exactly equal to the length yields
the null character `0` (defined behaviour since C++11), and any larger
position is an out-of-bounds read, modelled as `none`.  The embedding
of `find_pattern` therefore returns `Option (List Nat)`: `none` exactly
when the C++ code reads out of bounds, and otherwise the list of
offsets it prints, in print order.
-/

namespace RabinKarp

/-- A character sequence: the list of (non-negative) integer codes of its
characters, as they enter the hash arithmetic in the C++ source. -/
abbrev Str := List Nat

/-- Models `std::string::operator[]` applied at index `i`: the character for
`i < s.length`, the null character `0` for `i = s.length` (defined behaviour
in C++11), and an out-of-bounds read (`none`) beyond that. -/
def charAt (s : Str) (i : Nat) : Option Nat :=
  if h : i < s.length then some (s.get ⟨i, h⟩)
  else if i = s.length then some 0
  else none

/-- Models the factor `pow(2, m - 1)` of the sliding update in the source,
where `m` is the pattern length: `pow` works on `double`s, so for `m = 0`
the exponent is `-1` and the factor is the exact value `1/2`. -/
def powB (m : Nat) : ℚ := (2 : ℚ) ^ ((m : ℤ) - 1)

/-- Models the first `for` loop of `find_pattern` applied to one string:
the polynomial hash `Σ s[start+k] * 2^(m-1-k)` for `k = 0 .. m-1` of the
length-`m` window starting at `start`, reading characters through `charAt`
(so `none` as soon as a read is out of bounds).  The source runs this loop
once, accumulating the text hash `sum1` and the pattern hash `sum2` in the
same pass; both strings are indexed at `0 .. m-1`, so running the loop per
string reads exactly the same positions. -/
def windowHash (s : Str) (start : Nat) : Nat → Option ℚ
  | 0 => some 0
  | m + 1 => do
    let c ← charAt s start
    let rest ← windowHash s (start + 1) m
    pure ((c : ℚ) * 2 ^ m + rest)

/-- Models the second `for` loop of `find_pattern`: for each index `i` of the
given list (the source iterates `i = 1, ..., n-m`), it updates
`sum1 := 2 * (sum1 - se[i-1] * pow(2, m-1)) + se[i+m-1]` (the source's `d`
is the constant `2`) and emits `i` whenever the updated `sum1` equals the
pattern hash `sum2`. -/
def slideLoop (se : Str) (m : Nat) (sum2 : ℚ) : List Nat → ℚ → Option (List Nat)
  | [], _ => some []
  | i :: rest, sum1 => do
    let cOut ← charAt se (i - 1)
    let cIn ← charAt se (i + m - 1)
    let sum1' := 2 * (sum1 - (cOut : ℚ) * powB m) + (cIn : ℚ)
    let tail ← slideLoop se m sum2 rest sum1'
    pure (if sum1' = sum2 then i :: tail else tail)

/-- Embedding of `find_pattern(se, pa)` from `src/fun.cpp`.  It hashes the
pattern and the first text window, reports offset `0` on hash equality,
then slides the window with the incremental update, reporting each offset
whose window hash equals the pattern hash.  The loop bound `i < n - m + 1`
over C++ `int`s runs the body for `i = 1, ..., n-m` when `n > m` and not at
all when `n ≤ m`, which over `Nat` is `List.range' 1 (n - m)`.  The result
is the list of offsets printed, in print order, or `none` if the run reads
the text out of bounds (which happens exactly when `m > n + 1`, since the
source has no guard for patterns longer than the text). -/
def find_pattern (se pa : Str) : Option (List Nat) := do
  let m := pa.length
  let n := se.length
  let sum1 ← windowHash se 0 m
  let sum2 ← windowHash pa 0 m
  let rest ← slideLoop se m sum2 (List.range' 1 (n - m)) sum1
  pure ((if sum1 = sum2 then [0] else []) ++ rest)

/-- The base-2 polynomial hash of a whole sequence, computed directly from
scratch: `hashQ [c0, ..., c_{m-1}] = Σ c_k * 2^(m-1-k)`.  This is the
per-window recomputation that the specification's incremental-update
equivalence property compares against. -/
def hashQ : Str → ℚ
  | [] => 0
  | c :: rest => (c : ℚ) * 2 ^ rest.length + hashQ rest

/-- The window of `s` of length `m` starting at offset `i`. -/
def window (s : Str) (i m : Nat) : Str := (s.drop i).take m

/-- In-bounds indexing reduces to `List.getD`. -/
lemma charAt_eq_getD (s : Str) (i : Nat) (h : i < s.length) :
    charAt s i = some (s.getD i 0) := by
  simp [charAt, h, List.getD_eq_getElem, List.get_eq_getElem]

/-- A window that fits inside the string has the full length `m`. -/
lemma length_window (s : Str) (i m : Nat) (h : i + m ≤ s.length) :
    (window s i m).length = m := by
  simp [window, List.length_take]
  omega

lemma window_zero (s : Str) (i : Nat) : window s i 0 = [] := by
  simp [window]

lemma window_cons (s : Str) (i m : Nat) (hi : i < s.length) :
    window s i (m + 1) = s.getD i 0 :: window s (i + 1) m := by
  rw [window, List.drop_eq_getElem_cons hi, List.take_succ_cons,
    List.getD_eq_getElem _ _ hi, window]

/-- The first hash loop of the source, run over an in-bounds range, computes
exactly the direct polynomial hash of the corresponding window. -/
lemma windowHash_eq (s : Str) : ∀ (m start : Nat), start + m ≤ s.length →
    windowHash s start m = some (hashQ (window s start m)) := by
  intro m
  induction m with
  | zero => intro start _; simp [windowHash, window_zero, hashQ]
  | succ m ih =>
    intro start h
    have hs : start < s.length := by omega
    rw [windowHash, charAt_eq_getD s start hs, ih (start + 1) (by omega)]
    simp only [Option.bind_eq_bind, Option.some_bind, pure]
    rw [window_cons s start m hs, hashQ, length_window s (start + 1) m (by omega)]

/-- Appending a character on the right shifts the polynomial hash by the
base and adds the character (Horner step). -/
lemma hashQ_append (t : Str) (c : Nat) : hashQ (t ++ [c]) = 2 * hashQ t + c := by
  induction t with
  | nil => simp [hashQ]
  | cons a t ih =>
    simp only [List.cons_append, hashQ, List.append_eq, List.length_append,
      List.length_cons, List.length_nil]
    rw [ih]
    ring

lemma powB_succ (m : Nat) : powB (m + 1) = (2 : ℚ) ^ m := by
  rw [powB]
  push_cast
  rw [add_sub_cancel_right, zpow_natCast]

lemma powB_zero : powB 0 = 1 / 2 := by
  rw [powB]
  norm_num

lemma window_take_succ (s : Str) (i m : Nat) (h : i + m < s.length) :
    window s i (m + 1) = window s i m ++ [s.getD (i + m) 0] := by
  rw [window, window, List.take_succ]
  congr 1
  rw [List.getElem?_drop]
  rw [List.getElem?_eq_getElem h, List.getD_eq_getElem _ _ h]
  rfl

/-- Core rolling-hash identity: one incremental update applied to the direct
hash of window `i - 1` yields the direct hash of window `i`.  The case
`m = 0` holds because there `pow(2, m-1)` is `1/2` and the outgoing and
incoming characters coincide, so the update returns `2 * 0 = 0`, the hash
of the empty window. -/
lemma roll (se : Str) (m i : Nat) (hi : 1 ≤ i) (him : i + m ≤ se.length) :
    2 * (hashQ (window se (i - 1) m) - (se.getD (i - 1) 0 : ℚ) * powB m)
      + (se.getD (i + m - 1) 0 : ℚ) = hashQ (window se i m) := by
  cases m with
  | zero =>
    rw [window_zero, window_zero, powB_zero]
    have : i + 0 - 1 = i - 1 := by omega
    rw [this, hashQ]
    ring
  | succ m =>
    have hi1 : i - 1 < se.length := by omega
    have hstep : i - 1 + 1 = i := by omega
    rw [window_cons se (i - 1) m hi1, hstep, hashQ,
      length_window se i m (by omega), powB_succ]
    have him' : i + m < se.length := by omega
    have hidx : i + (m + 1) - 1 = i + m := by omega
    rw [hidx, window_take_succ se i m him', hashQ_append]
    ring

/-- The sliding loop, started at index `i` with the direct hash of window
`i - 1` as accumulator, returns exactly the indices of its range whose
window hash equals `sum2`, in order, and performs no out-of-bounds read. -/
lemma slideLoop_spec (se : Str) (m : Nat) (sum2 : ℚ) :
    ∀ (k i : Nat), 1 ≤ i → i + k + m ≤ se.length + 1 →
    slideLoop se m sum2 (List.range' i k) (hashQ (window se (i - 1) m)) =
      some ((List.range' i k).filter
        (fun j => decide (hashQ (window se j m) = sum2))) := by
  intro k
  induction k with
  | zero => intro i _ _; simp [slideLoop]
  | succ k ih =>
    intro i hi hk
    have h1 : i - 1 < se.length := by omega
    have h2 : i + m - 1 < se.length := by omega
    have him : i + m ≤ se.length := by omega
    rw [List.range'_succ, slideLoop, charAt_eq_getD se (i - 1) h1,
      charAt_eq_getD se (i + m - 1) h2]
    simp only [Option.bind_eq_bind, Option.some_bind]
    rw [roll se m i hi him]
    have hstep : i + 1 - 1 = i := by omega
    have := ih (i + 1) (by omega) (by omega)
    rw [hstep] at this
    rw [this]
    simp only [Option.some_bind, pure, List.filter_cons]
    by_cases hc : hashQ (window se i m) = sum2 <;> simp [hc]

lemma window_self (pa : Str) : window pa 0 pa.length = pa := by
  simp [window]

/-- Central characterisation: when the pattern is at most as long as the
text, `find_pattern` reads nothing out of bounds and returns exactly the
window offsets `0 .. n-m` whose direct polynomial hash equals the direct
polynomial hash of the pattern, in ascending order. -/
lemma find_pattern_spec (se pa : Str) (hmn : pa.length ≤ se.length) :
    find_pattern se pa =
      some ((List.range (se.length - pa.length + 1)).filter
        (fun i => decide (hashQ (window se i pa.length) = hashQ pa))) := by
  have h1 : windowHash se 0 pa.length = some (hashQ (window se 0 pa.length)) :=
    windowHash_eq se pa.length 0 (by omega)
  have h2 : windowHash pa 0 pa.length = some (hashQ pa) := by
    rw [windowHash_eq pa pa.length 0 (by omega), window_self]
  have h3 := slideLoop_spec se pa.length (hashQ pa) (se.length - pa.length) 1
    (by omega) (by omega)
  rw [find_pattern, h1, h2]
  simp only [Option.bind_eq_bind, Option.some_bind]
  have hstep : (1 : Nat) - 1 = 0 := by omega
  rw [hstep] at h3
  rw [h3]
  simp only [Option.some_bind, pure]
  have hr : List.range (se.length - pa.length + 1)
      = 0 :: List.range' 1 (se.length - pa.length) := by
    rw [List.range_eq_range', List.range'_succ]
  rw [hr, List.filter_cons]
  by_cases hc : hashQ (window se 0 pa.length) = hashQ pa <;> simp [hc]

/-- C1: the claim that the offsets reported by `find_pattern` are exactly
the true occurrences of the pattern fails on the source: the source reports
on hash equality alone, with no verification step, and the base-2 polynomial
hash collides.  On text "bb" and pattern "ad" both hash to `294`, so the
code reports offset `0` although the window "bb" differs from "ad". -/
theorem find_pattern_false_positive :
    find_pattern [98, 98] [97, 100] = some [0] ∧ window [98, 98] 0 2 ≠ [97, 100] := by
  constructor
  · norm_num [find_pattern, windowHash, slideLoop, charAt, powB, List.range']
  · decide

/-- C2: completeness (no false negatives).  For every text, every non-empty
pattern no longer than the text, and every offset `i` whose window equals
the pattern, `find_pattern` succeeds and reports `i`: equal windows have
equal hashes, so a true occurrence is never skipped. -/
theorem find_pattern_complete (se pa : Str) (i : Nat)
    (hm : 1 ≤ pa.length) (hmn : pa.length ≤ se.length)
    (hocc : window se i pa.length = pa) :
    ∃ l, find_pattern se pa = some l ∧ i ∈ l := by
  have hlen : (window se i pa.length).length = pa.length := by rw [hocc]
  have hmin : min pa.length (se.length - i) = pa.length := by
    simpa [window, List.length_take, List.length_drop] using hlen
  have hle : pa.length ≤ se.length - i := min_eq_left_iff.mp hmin
  have hin : i + pa.length ≤ se.length := by omega
  refine ⟨_, find_pattern_spec se pa hmn, ?_⟩
  rw [List.mem_filter]
  constructor
  · rw [List.mem_range]; omega
  · rw [decide_eq_true_eq, hocc]

/-- C3: incremental-update equivalence.  For a non-empty pattern of length
`m` and any window index `i` in `1 .. n-m`, applying the source's update
rule `2 * (hash(window_{i-1}) - text[i-1] * pow(2, m-1)) + text[i+m-1]` to
the direct base-2 polynomial hash of window `i-1` gives exactly the direct
recomputed hash of window `i`: the optimised rolling computation and the
naive per-window recomputation define the same hash sequence. -/
theorem rolling_update_eq_direct (se : Str) (m i : Nat)
    (hm : 1 ≤ m) (hi : 1 ≤ i) (him : i + m ≤ se.length) :
    2 * (hashQ (window se (i - 1) m) - (se.getD (i - 1) 0 : ℚ) * powB m)
      + (se.getD (i + m - 1) 0 : ℚ) = hashQ (window se i m) :=
  roll se m i hi him

/-- C4: the claim that `find_pattern` performs no out-of-bounds access for
all inputs (including `m > n`) fails on the source: there is no guard for
patterns longer than the text, so the first hash loop reads the text out of
bounds.  On the empty text and pattern "ab" the loop reads `text[1]` past
the end, so the embedding reaches the error branch. -/
theorem find_pattern_oob_read :
    find_pattern [] [97, 98] = none := by
  norm_num [find_pattern, windowHash, slideLoop, charAt, powB, List.range']

/-- C5: the claim that a pattern longer than the text yields the empty
result fails on the source: with text "b" and the two-character pattern
`[97, 2]`, the first hash loop hashes "b" plus the trailing null character
to `196`, which equals the pattern hash `2*97 + 2`, and the code reports
offset `0` instead of returning an empty result. -/
theorem find_pattern_long_pattern_match :
    ([97, 2] : Str).length > ([98] : Str).length ∧
      find_pattern [98] [97, 2] = some [0] := by
  constructor
  · decide
  · norm_num [find_pattern, windowHash, slideLoop, charAt, powB, List.range']

/-- C6: for the empty pattern, `find_pattern` reports a match at every
offset `0 .. n` inclusive: the initial hashes are both `0`, and since
`pow(2, m-1)` is exactly `1/2` for `m = 0`, every update returns
`2 * (0 - c/2) + c = 0`, so every slide position matches as well. -/
theorem find_pattern_empty_pattern (se : Str) :
    find_pattern se [] = some (List.range (se.length + 1)) := by
  rw [find_pattern_spec se [] (by simp)]
  simp [window, hashQ]

/-- C7: for a non-empty pattern no longer than the text, `find_pattern`
succeeds and returns exactly the set of window start offsets `i ≤ n - m`
whose window hash equals the pattern hash, in strictly ascending order
(hence duplicate-free, with every offset at most `n - m`). -/
theorem find_pattern_hash_offsets (se pa : Str)
    (hm : 1 ≤ pa.length) (hmn : pa.length ≤ se.length) :
    ∃ l, find_pattern se pa = some l ∧ List.Pairwise (· < ·) l ∧
      ∀ i, i ∈ l ↔ i ≤ se.length - pa.length ∧
        hashQ (window se i pa.length) = hashQ pa := by
  refine ⟨_, find_pattern_spec se pa hmn, ?_, ?_⟩
  · exact List.Pairwise.filter _ (List.pairwise_lt_range _)
  · intro i
    rw [List.mem_filter, List.mem_range, decide_eq_true_eq, Nat.lt_succ_iff]

/-- C8: the claim that for equal-length text and pattern the output is
`[0]` when they are equal and `[]` otherwise fails on the source: with
text "ca" and pattern "bc", both of length 2 and unequal, the hashes
collide at `295` and the code outputs `[0]`. -/
theorem find_pattern_equal_length_collision :
    ([99, 97] : Str).length = ([98, 99] : Str).length ∧ ([99, 97] : Str) ≠ [98, 99] ∧
      find_pattern [99, 97] [98, 99] = some [0] := by
  refine ⟨by decide, by decide, ?_⟩
  norm_num [find_pattern, windowHash, slideLoop, charAt, powB, List.range']

set_option maxHeartbeats 1600000 in
/-- C9: on the inputs hard-coded in `main`, text "eksksforgreeks" and
pattern "eks" (as character codes), `find_pattern` reports exactly the
offsets `0` and `11`, in that order. -/
theorem find_pattern_concrete_main :
    find_pattern [101, 107, 115, 107, 115, 102, 111, 114, 103, 114, 101, 101, 107, 115]
      [101, 107, 115] = some [0, 11] := by
  norm_num [find_pattern, windowHash, slideLoop, charAt, powB, List.range']

/-- C10: for a single-character pattern `[c]` on a non-empty text, the
output of `find_pattern` is exactly the ascending list of positions whose
character equals `c`: a length-1 window hashes to its character value, so
hash equality coincides with character equality and no false positive is
possible. -/
theorem find_pattern_single_char (se : Str) (c : Nat) (hn : 1 ≤ se.length) :
    find_pattern se [c] = some ((List.range se.length).filter
      (fun i => decide (se.getD i 0 = c))) := by
  rw [find_pattern_spec se [c] (by simpa using hn)]
  have hr : se.length - [c].length + 1 = se.length := by
    simp only [List.length_cons, List.length_nil]
    omega
  rw [hr]
  refine congrArg some (List.filter_congr fun i hi => ?_)
  rw [List.mem_range] at hi
  have hwin : window se i [c].length = [se.getD i 0] := by
    have h1 := window_cons se i 0 hi
    rw [window_zero] at h1
    simpa using h1
  rw [decide_eq_decide, hwin]
  simp only [hashQ, List.length_nil]
  norm_num

/-- Witness for C2 at text "ab", pattern "b", offset 1. -/
theorem find_pattern_complete_witness :
    ∃ l, find_pattern [97, 98] [98] = some l ∧ 1 ∈ l :=
  find_pattern_complete [97, 98] [98] 1 (by decide) (by decide) (by decide)

/-- Witness for C3 at text `[1, 2, 3]`, window length 2, index 1. -/
theorem rolling_update_eq_direct_witness :
    2 * (hashQ (window [1, 2, 3] (1 - 1) 2) - (([1, 2, 3] : Str).getD (1 - 1) 0 : ℚ) * powB 2)
      + (([1, 2, 3] : Str).getD (1 + 2 - 1) 0 : ℚ) = hashQ (window [1, 2, 3] 1 2) :=
  rolling_update_eq_direct [1, 2, 3] 2 1 (by decide) (by decide) (by decide)

/-- Witness for C7 at text "a", pattern "a". -/
theorem find_pattern_hash_offsets_witness :
    ∃ l, find_pattern [97] [97] = some l ∧ List.Pairwise (· < ·) l ∧
      ∀ i, i ∈ l ↔ i ≤ ([97] : Str).length - ([97] : Str).length ∧
        hashQ (window [97] i ([97] : Str).length) = hashQ [97] :=
  find_pattern_hash_offsets [97] [97] (by decide) (by decide)

/-- Witness for C10 at text "aba", character "a". -/
theorem find_pattern_single_char_witness :
    find_pattern [97, 98, 97] [97] = some ((List.range ([97, 98, 97] : Str).length).filter
      (fun i => decide (([97, 98, 97] : Str).getD i 0 = 97))) :=
  find_pattern_single_char [97, 98, 97] 97 (by decide)

end RabinKarp
